import Mathlib

/-!
Verification of `noise.py`, a 2D procedural noise library.

Shallow embedding of the noise core of `noise.py`: the integer avalanche
hash (`hash32`, `hash2d`), the scalar/interpolation utilities
(`to_unit_double`, `lerp`, `fade`), and the four sampling components
(`ValueNoise2D`, `FBMValueNoise2D`, `PerlinNoise2D`, `WorleyNoise2D`).

Modelling conventions:
* Python integers are unbounded; `v & 0xFFFFFFFF` on a (possibly negative)
  integer is `v mod 2^32`, embedded as `(v % 4294967296).toNat : ℕ`.
* Python floats are binary rationals, so continuous coordinates and noise
  values are embedded in `ℚ` (exact arithmetic, the idealized semantics the
  spec describes); the one genuinely irrational step, Worley's `sqrt`,
  lands in `ℝ`.
* `math.floor` is `Int.floor`.
-/

set_option autoImplicit false

/-- Embeds `hash32` from `noise.py`: mask to 32 bits, then xor-shift/multiply
avalanche rounds, each multiplication reduced mod `2^32`. -/
def hash32 (v : ℤ) : ℕ :=
  let x0 := (v % 4294967296).toNat
  let x1 := x0 ^^^ (x0 >>> 16)
  let x2 := x1 * 0x7feb352d % 4294967296
  let x3 := x2 ^^^ (x2 >>> 15)
  let x4 := x3 * 0x846ca68b % 4294967296
  let x5 := x4 ^^^ (x4 >>> 16)
  x5 % 4294967296

/-- Embeds `hash2d` from `noise.py`.  Python computes
`(y ^ (seed * 0x85ebca6b)) & 0xFFFFFFFF` on unbounded two's-complement
integers; bitwise xor commutes with taking the low 32 bits, so it equals
the `ℕ`-xor of the two operands' residues mod `2^32`. -/
def hash2d (x y seed : ℤ) : ℕ :=
  let h := ((x + seed * 0x9e3779b1) % 4294967296).toNat
  let k := ((y % 4294967296).toNat) ^^^ (((seed * 0x85ebca6b) % 4294967296).toNat)
  let h2 := hash32 (h : ℤ)
  let k2 := hash32 (k : ℤ)
  hash32 ((h2 ^^^ k2 : ℕ) : ℤ)

/-- Embeds `to_unit_double` from `noise.py`: map a uint32 to `[0,1]` by dividing
by `0xFFFFFFFF`. -/
def to_unit_double (v : ℕ) : ℚ :=
  (v : ℚ) / 0xFFFFFFFF

/-- Embeds `lerp` from `noise.py`. -/
def lerp (a b t : ℚ) : ℚ :=
  a + t * (b - a)

/-- Embeds `fade` from `noise.py`: the quintic smoothstep `6t^5 - 15t^4 + 10t^3`. -/
def fade (t : ℚ) : ℚ :=
  t * t * t * (t * (t * 6 - 15) + 10)

/-- The `ValueNoise2D` class holds only its seed. -/
structure ValueNoise2D where
  seed : ℤ

/-- Embeds `ValueNoise2D._lattice_value`. -/
def ValueNoise2D.lattice_value (n : ValueNoise2D) (ix iy : ℤ) : ℚ :=
  to_unit_double (hash2d ix iy n.seed)

/-- Embeds `ValueNoise2D.sample`: bilinear interpolation of the four corner
lattice values, with `fade` of the fractional offsets as parameter. -/
def ValueNoise2D.sample (n : ValueNoise2D) (x y : ℚ) : ℚ :=
  let x0 : ℤ := ⌊x⌋
  let y0 : ℤ := ⌊y⌋
  let x1 : ℤ := x0 + 1
  let y1 : ℤ := y0 + 1
  let fx : ℚ := x - x0
  let fy : ℚ := y - y0
  let v00 := n.lattice_value x0 y0
  let v10 := n.lattice_value x1 y0
  let v01 := n.lattice_value x0 y1
  let v11 := n.lattice_value x1 y1
  let u := fade fx
  let v := fade fy
  let vx0 := lerp v00 v10 u
  let vx1 := lerp v01 v11 u
  lerp vx0 vx1 v

-- Basic range lemmas for the hash kernel and utilities.

theorem hash32_lt (v : ℤ) : hash32 v < 4294967296 :=
  Nat.mod_lt _ (by norm_num)

theorem hash2d_lt (x y seed : ℤ) : hash2d x y seed < 4294967296 :=
  hash32_lt _

theorem to_unit_double_nonneg (v : ℕ) : 0 ≤ to_unit_double v := by
  unfold to_unit_double
  positivity

theorem to_unit_double_le_one {v : ℕ} (h : v < 4294967296) : to_unit_double v ≤ 1 := by
  unfold to_unit_double
  rw [div_le_one (by norm_num)]
  exact_mod_cast Nat.le_of_lt_succ h

theorem lattice_value_nonneg (n : ValueNoise2D) (ix iy : ℤ) :
    0 ≤ n.lattice_value ix iy :=
  to_unit_double_nonneg _

theorem lattice_value_le_one (n : ValueNoise2D) (ix iy : ℤ) :
    n.lattice_value ix iy ≤ 1 :=
  to_unit_double_le_one (hash2d_lt _ _ _)

theorem fade_nonneg {t : ℚ} (h : 0 ≤ t) : 0 ≤ fade t := by
  unfold fade
  nlinarith [sq_nonneg (12 * t - 15), mul_nonneg (mul_nonneg h h) h]

theorem fade_le_one {t : ℚ} (h0 : 0 ≤ t) (h1 : t ≤ 1) : fade t ≤ 1 := by
  unfold fade
  nlinarith [pow_nonneg (sub_nonneg.2 h1) 3, sq_nonneg (4 * t + 1),
    mul_nonneg (pow_nonneg (sub_nonneg.2 h1) 3) (by nlinarith [sq_nonneg (4 * t + 1)] :
      (0:ℚ) ≤ 6 * t ^ 2 + 3 * t + 1)]

theorem lerp_nonneg {a b t : ℚ} (ha : 0 ≤ a) (hb : 0 ≤ b)
    (ht0 : 0 ≤ t) (ht1 : t ≤ 1) : 0 ≤ lerp a b t := by
  unfold lerp
  nlinarith

theorem lerp_le_one {a b t : ℚ} (ha : a ≤ 1) (hb : b ≤ 1)
    (ht0 : 0 ≤ t) (ht1 : t ≤ 1) : lerp a b t ≤ 1 := by
  unfold lerp
  nlinarith

theorem fract_nonneg_of_floor (x : ℚ) : 0 ≤ x - (⌊x⌋ : ℚ) :=
  sub_nonneg.2 (Int.floor_le x)

theorem fract_le_one_of_floor (x : ℚ) : x - (⌊x⌋ : ℚ) ≤ 1 := by
  have := Int.lt_floor_add_one x
  linarith

theorem value_sample_nonneg (n : ValueNoise2D) (x y : ℚ) :
    0 ≤ n.sample x y := by
  unfold ValueNoise2D.sample
  have hx0 := fract_nonneg_of_floor x
  have hx1 := fract_le_one_of_floor x
  have hy0 := fract_nonneg_of_floor y
  have hy1 := fract_le_one_of_floor y
  exact lerp_nonneg
    (lerp_nonneg (lattice_value_nonneg _ _ _) (lattice_value_nonneg _ _ _)
      (fade_nonneg hx0) (fade_le_one hx0 hx1))
    (lerp_nonneg (lattice_value_nonneg _ _ _) (lattice_value_nonneg _ _ _)
      (fade_nonneg hx0) (fade_le_one hx0 hx1))
    (fade_nonneg hy0) (fade_le_one hy0 hy1)

theorem value_sample_le_one (n : ValueNoise2D) (x y : ℚ) :
    n.sample x y ≤ 1 := by
  unfold ValueNoise2D.sample
  have hx0 := fract_nonneg_of_floor x
  have hx1 := fract_le_one_of_floor x
  have hy0 := fract_nonneg_of_floor y
  have hy1 := fract_le_one_of_floor y
  exact lerp_le_one
    (lerp_le_one (lattice_value_le_one _ _ _) (lattice_value_le_one _ _ _)
      (fade_nonneg hx0) (fade_le_one hx0 hx1))
    (lerp_le_one (lattice_value_le_one _ _ _) (lattice_value_le_one _ _ _)
      (fade_nonneg hx0) (fade_le_one hx0 hx1))
    (fade_nonneg hy0) (fade_le_one hy0 hy1)

/-- The `FBMValueNoise2D` configuration: a base `ValueNoise2D` plus octave
parameters, exactly the fields set by `__init__` (which performs no
validation). -/
structure FBMValueNoise2D where
  base : ValueNoise2D
  octaves : ℕ
  lacunarity : ℚ
  gain : ℚ

/-- Embeds `FBMValueNoise2D.__init__(seed, octaves, lacunarity, gain)`: builds the
configuration unconditionally (no input validation). -/
def FBMValueNoise2D.init (seed : ℤ) (octaves : ℕ) (lacunarity gain : ℚ) :
    FBMValueNoise2D :=
  ⟨⟨seed⟩, octaves, lacunarity, gain⟩

/-- State of the `for _ in range(octaves)` loop in `FBMValueNoise2D.sample`
after `k` iterations, as `(amp, freq, total, amp_sum)`; the loop starts at
`(1, 1, 0, 0)` and each iteration adds `base.sample(x*freq, y*freq) * amp`
to `total` and `amp` to `amp_sum` before updating `freq` and `amp`. -/
def fbm_loop (n : FBMValueNoise2D) (x y : ℚ) : ℕ → ℚ × ℚ × ℚ × ℚ
  | 0 => (1, 1, 0, 0)
  | k + 1 =>
    let s := fbm_loop n x y k
    (s.1 * n.gain, s.2.1 * n.lacunarity,
     s.2.2.1 + n.base.sample (x * s.2.1) (y * s.2.1) * s.1, s.2.2.2 + s.1)

/-- Embeds `FBMValueNoise2D.sample`: run the octave loop and normalize by
`amp_sum`. -/
def FBMValueNoise2D.sample (n : FBMValueNoise2D) (x y : ℚ) : ℚ :=
  let s := fbm_loop n x y n.octaves
  s.2.2.1 / s.2.2.2

/-- The `PerlinNoise2D` class holds only its seed. -/
structure PerlinNoise2D where
  seed : ℤ

/-- Embeds `PerlinNoise2D._gradients`: the fixed 8-entry palette, with the
diagonal components written as the source's decimal literal `0.70710678`. -/
def PerlinNoise2D.gradients : List (ℚ × ℚ) :=
  [(1, 0), (-1, 0), (0, 1), (0, -1),
   (0.70710678, 0.70710678), (-0.70710678, 0.70710678),
   (0.70710678, -0.70710678), (-0.70710678, -0.70710678)]

/-- Embeds `PerlinNoise2D._gradient`: select a palette entry by
`hash2d(ix, iy, seed) & 7`. -/
def PerlinNoise2D.gradient (n : PerlinNoise2D) (ix iy : ℤ) : ℚ × ℚ :=
  let h := hash2d ix iy n.seed
  let idx := h &&& 7
  PerlinNoise2D.gradients.getD idx (0, 0)

/-- Embeds `PerlinNoise2D._dot_grid_gradient`. -/
def PerlinNoise2D.dot_grid_gradient (n : PerlinNoise2D) (ix iy : ℤ)
    (x y : ℚ) : ℚ :=
  let g := n.gradient ix iy
  let dx := x - (ix : ℚ)
  let dy := y - (iy : ℚ)
  g.1 * dx + g.2 * dy

/-- Embeds `PerlinNoise2D.sample`: faded bilinear interpolation of the four corner
dot products, mapped by `v*0.5 + 0.5` and clamped to `[0,1]`. -/
def PerlinNoise2D.sample (n : PerlinNoise2D) (x y : ℚ) : ℚ :=
  let x0 : ℤ := ⌊x⌋
  let y0 : ℤ := ⌊y⌋
  let x1 : ℤ := x0 + 1
  let y1 : ℤ := y0 + 1
  let sx := fade (x - x0)
  let sy := fade (y - y0)
  let n00 := n.dot_grid_gradient x0 y0 x y
  let n10 := n.dot_grid_gradient x1 y0 x y
  let n01 := n.dot_grid_gradient x0 y1 x y
  let n11 := n.dot_grid_gradient x1 y1 x y
  let ix0 := lerp n00 n10 sx
  let ix1 := lerp n01 n11 sx
  let value := lerp ix0 ix1 sy
  let v := value * 0.5 + 0.5
  max 0 (min 1 v)

/-- The `WorleyNoise2D` class holds only its seed. -/
structure WorleyNoise2D where
  seed : ℤ

/-- Embeds `WorleyNoise2D._feature_point`: two unit-interval offsets derived from
the cell hash (the second from the hash xored with `0x68BC21EB`), added to
the cell's integer corner. -/
def WorleyNoise2D.feature_point (n : WorleyNoise2D) (ix iy : ℤ) : ℚ × ℚ :=
  let h := hash2d ix iy n.seed
  let hx := hash32 (h : ℤ)
  let hy := hash32 ((h ^^^ 0x68BC21EB : ℕ) : ℤ)
  let fx := to_unit_double hx
  let fy := to_unit_double hy
  ((ix : ℚ) + fx, (iy : ℚ) + fy)

/-- The `(i, j)` offsets scanned by the nested
`for j in range(-1, 2): for i in range(-1, 2)` loops, in iteration order. -/
def cell_offsets : List (ℤ × ℤ) :=
  [(-1, -1), (0, -1), (1, -1), (-1, 0), (0, 0), (1, 0), (-1, 1), (0, 1), (1, 1)]

/-- Squared distance from `(x, y)` to the feature point of the cell at
offset `p` from `(floor x, floor y)`: the loop body's `dx*dx + dy*dy`. -/
def WorleyNoise2D.dist2_to_cell (n : WorleyNoise2D) (x y : ℚ) (p : ℤ × ℤ) : ℚ :=
  let fp := n.feature_point (⌊x⌋ + p.1) (⌊y⌋ + p.2)
  let dx := fp.1 - x
  let dy := fp.2 - y
  dx * dx + dy * dy

/-- The `min_dist2` accumulator of `WorleyNoise2D.sample`: fold the strict
`if d2 < min_dist2` update over the 3×3 neighborhood, starting from `1e9`. -/
def WorleyNoise2D.min_dist2 (n : WorleyNoise2D) (x y : ℚ) : ℚ :=
  cell_offsets.foldl
    (fun acc p =>
      let d2 := n.dist2_to_cell x y p
      if d2 < acc then d2 else acc)
    1000000000

/-- Embeds `WorleyNoise2D.sample`: `sqrt(min_dist2) / sqrt(3)`, clamped to `[0,1]`. -/
noncomputable def WorleyNoise2D.sample (n : WorleyNoise2D) (x y : ℚ) : ℝ :=
  let d := Real.sqrt ((n.min_dist2 x y : ℚ) : ℝ)
  let v := d / Real.sqrt 3
  max 0 (min 1 v)

-- Generic lemmas about the running-minimum fold used by Worley sampling.

theorem foldl_min_le_init {α : Type} (g : α → ℚ) (l : List α) (init : ℚ) :
    l.foldl (fun acc a => if g a < acc then g a else acc) init ≤ init := by
  induction l generalizing init with
  | nil => simp
  | cons b t ih =>
    simp only [List.foldl_cons]
    refine le_trans (ih _) ?_
    split_ifs with h
    · exact le_of_lt h
    · exact le_rfl

theorem foldl_min_le_of_mem {α : Type} (g : α → ℚ) :
    ∀ (l : List α) (init : ℚ) (a : α), a ∈ l →
      l.foldl (fun acc b => if g b < acc then g b else acc) init ≤ g a
  | [], _, a, ha => absurd ha (List.not_mem_nil a)
  | b :: t, init, a, ha => by
    simp only [List.foldl_cons]
    rcases List.mem_cons.1 ha with rfl | ha'
    · refine le_trans (foldl_min_le_init g t _) ?_
      split_ifs with h
      · exact le_rfl
      · exact le_of_not_lt h
    · exact foldl_min_le_of_mem g t _ a ha'

theorem foldl_min_nonneg {α : Type} (g : α → ℚ) (hg : ∀ a, 0 ≤ g a) :
    ∀ (l : List α) (init : ℚ), 0 ≤ init →
      0 ≤ l.foldl (fun acc b => if g b < acc then g b else acc) init
  | [], _, h => by simpa using h
  | b :: t, init, h => by
    simp only [List.foldl_cons]
    refine foldl_min_nonneg g hg t _ ?_
    split_ifs
    · exact hg b
    · exact h

-- Interpolation collapse at integer lattice coordinates.

theorem fade_zero : fade 0 = 0 := by
  norm_num [fade]

theorem lerp_zero_right (a b : ℚ) : lerp a b 0 = a := by
  simp [lerp]

theorem value_sample_intCast (n : ValueNoise2D) (ix iy : ℤ) :
    n.sample (ix : ℚ) (iy : ℚ) = to_unit_double (hash2d ix iy n.seed) := by
  simp [ValueNoise2D.sample, ValueNoise2D.lattice_value, lerp, fade,
    Int.floor_intCast]

-- fBm loop invariants.

theorem fbm_loop_bounds (n : FBMValueNoise2D) (x y : ℚ) (hg : 0 < n.gain)
    (k : ℕ) :
    0 < (fbm_loop n x y k).1 ∧ 0 ≤ (fbm_loop n x y k).2.2.2 ∧
    0 ≤ (fbm_loop n x y k).2.2.1 ∧
    (fbm_loop n x y k).2.2.1 ≤ (fbm_loop n x y k).2.2.2 := by
  induction k with
  | zero => norm_num [fbm_loop]
  | succ k ih =>
    obtain ⟨h1, h2, h3, h4⟩ := ih
    have hs0 := value_sample_nonneg n.base
      (x * (fbm_loop n x y k).2.1) (y * (fbm_loop n x y k).2.1)
    have hs1 := value_sample_le_one n.base
      (x * (fbm_loop n x y k).2.1) (y * (fbm_loop n x y k).2.1)
    simp only [fbm_loop]
    refine ⟨mul_pos h1 hg, by nlinarith, by nlinarith, by nlinarith⟩

theorem fbm_amp_sum_ge_one (n : FBMValueNoise2D) (x y : ℚ) (hg : 0 < n.gain) :
    ∀ k : ℕ, 1 ≤ k → 1 ≤ (fbm_loop n x y k).2.2.2 := by
  intro k hk
  induction k with
  | zero => exact absurd hk (by norm_num)
  | succ k ih =>
    rcases Nat.eq_zero_or_pos k with rfl | hpos
    · norm_num [fbm_loop]
    · have hb := fbm_loop_bounds n x y hg k
      have h1 := ih hpos
      simp only [fbm_loop]
      linarith [hb.1]

theorem fbm_sample_mem (n : FBMValueNoise2D) (x y : ℚ)
    (ho : 1 ≤ n.octaves) (hg : 0 < n.gain) :
    0 ≤ n.sample x y ∧ n.sample x y ≤ 1 := by
  have hb := fbm_loop_bounds n x y hg n.octaves
  have hs := fbm_amp_sum_ge_one n x y hg n.octaves ho
  simp only [FBMValueNoise2D.sample]
  constructor
  · exact div_nonneg hb.2.2.1 (le_trans zero_le_one hs)
  · rw [div_le_one (lt_of_lt_of_le one_pos hs)]
    exact hb.2.2.2

-- Perlin and Worley clamps.

theorem perlin_sample_mem (n : PerlinNoise2D) (x y : ℚ) :
    0 ≤ n.sample x y ∧ n.sample x y ≤ 1 := by
  simp only [PerlinNoise2D.sample]
  exact ⟨le_max_left 0 _, max_le (by norm_num) (min_le_left _ _)⟩

theorem worley_sample_mem (n : WorleyNoise2D) (x y : ℚ) :
    0 ≤ n.sample x y ∧ n.sample x y ≤ 1 := by
  simp only [WorleyNoise2D.sample]
  exact ⟨le_max_left 0 _, max_le (by norm_num) (min_le_left _ _)⟩

-- hash32 versus the spec's reference avalanche mix.

/-- The avalanche mix exactly as §4.1 of the spec words it, computed on `v`
reduced modulo `2^32` (the spec lists no final masking step); kept as a
separate definition to compare against `hash32` from the source. -/
def hash32_ref_mix (v : ℤ) : ℕ :=
  let x0 := (v % 4294967296).toNat
  let x1 := x0 ^^^ (x0 >>> 16)
  let x2 := x1 * 0x7feb352d % 4294967296
  let x3 := x2 ^^^ (x2 >>> 15)
  let x4 := x3 * 0x846ca68b % 4294967296
  x4 ^^^ (x4 >>> 16)

theorem xor_shr_lt {a : ℕ} (k : ℕ) (h : a < 4294967296) :
    a ^^^ (a >>> k) < 4294967296 := by
  have h2 : a < 2 ^ 32 := by norm_num at h ⊢; exact h
  have hs : a >>> k < 2 ^ 32 := by
    rw [Nat.shiftRight_eq_div_pow]
    exact lt_of_le_of_lt (Nat.div_le_self _ _) h2
  have := Nat.xor_lt_two_pow h2 hs
  norm_num at this
  exact this

-- Worley feature points and the 3×3 minimum-distance scan.

theorem feature_point_bounds (n : WorleyNoise2D) (ix iy : ℤ) :
    (ix : ℚ) ≤ (n.feature_point ix iy).1 ∧
    (n.feature_point ix iy).1 ≤ (ix : ℚ) + 1 ∧
    (iy : ℚ) ≤ (n.feature_point ix iy).2 ∧
    (n.feature_point ix iy).2 ≤ (iy : ℚ) + 1 := by
  simp only [WorleyNoise2D.feature_point]
  have hx0 := to_unit_double_nonneg (hash32 ((hash2d ix iy n.seed : ℕ) : ℤ))
  have hx1 := to_unit_double_le_one (hash32_lt ((hash2d ix iy n.seed : ℕ) : ℤ))
  have hy0 := to_unit_double_nonneg
    (hash32 (((hash2d ix iy n.seed ^^^ 0x68BC21EB : ℕ)) : ℤ))
  have hy1 := to_unit_double_le_one
    (hash32_lt (((hash2d ix iy n.seed ^^^ 0x68BC21EB : ℕ)) : ℤ))
  exact ⟨by linarith, by linarith, by linarith, by linarith⟩

theorem dist2_to_cell_nonneg (n : WorleyNoise2D) (x y : ℚ) (p : ℤ × ℤ) :
    0 ≤ n.dist2_to_cell x y p := by
  simp only [WorleyNoise2D.dist2_to_cell]
  exact add_nonneg (mul_self_nonneg _) (mul_self_nonneg _)

theorem min_dist2_nonneg (n : WorleyNoise2D) (x y : ℚ) :
    0 ≤ n.min_dist2 x y :=
  foldl_min_nonneg _ (dist2_to_cell_nonneg n x y) cell_offsets _ (by norm_num)

theorem min_dist2_le_cell (n : WorleyNoise2D) (x y : ℚ) (p : ℤ × ℤ)
    (hp : p ∈ cell_offsets) :
    n.min_dist2 x y ≤ n.dist2_to_cell x y p :=
  foldl_min_le_of_mem _ cell_offsets _ p hp

theorem dist2_center_le_two (n : WorleyNoise2D) (x y : ℚ) :
    n.dist2_to_cell x y (0, 0) ≤ 2 := by
  simp only [WorleyNoise2D.dist2_to_cell, add_zero]
  have hfx := feature_point_bounds n ⌊x⌋ ⌊y⌋
  have hx0 : (⌊x⌋ : ℚ) ≤ x := Int.floor_le x
  have hx1 : x < (⌊x⌋ : ℚ) + 1 := Int.lt_floor_add_one x
  have hy0 : (⌊y⌋ : ℚ) ≤ y := Int.floor_le y
  have hy1 : y < (⌊y⌋ : ℚ) + 1 := Int.lt_floor_add_one y
  obtain ⟨h1, h2, h3, h4⟩ := hfx
  nlinarith [sq_nonneg ((n.feature_point ⌊x⌋ ⌊y⌋).1 - x),
    sq_nonneg ((n.feature_point ⌊x⌋ ⌊y⌋).2 - y)]

theorem min_dist2_le_two (n : WorleyNoise2D) (x y : ℚ) :
    n.min_dist2 x y ≤ 2 :=
  le_trans (min_dist2_le_cell n x y (0, 0) (by decide)) (dist2_center_le_two n x y)

theorem floor_intCast_add_unit {q : ℚ} (iz : ℤ) (h0 : 0 ≤ q) (h1 : q ≤ 1) :
    ⌊(iz : ℚ) + q⌋ = iz ∨ ⌊(iz : ℚ) + q⌋ = iz + 1 := by
  rcases lt_or_eq_of_le h1 with h | h
  · left
    rw [add_comm, Int.floor_add_int]
    have : ⌊q⌋ = 0 := Int.floor_eq_zero_iff.2 ⟨h0, h⟩
    omega
  · right
    subst h
    have : (iz : ℚ) + 1 = ((iz + 1 : ℤ) : ℚ) := by push_cast; ring
    rw [this, Int.floor_intCast]

theorem min_dist2_at_feature (n : WorleyNoise2D) (ix iy : ℤ) :
    n.min_dist2 (n.feature_point ix iy).1 (n.feature_point ix iy).2 = 0 := by
  obtain ⟨hx0, hx1, hy0, hy1⟩ := feature_point_bounds n ix iy
  set px := (n.feature_point ix iy).1 with hpx
  set py := (n.feature_point ix iy).2 with hpy
  have hfx : ⌊px⌋ = ix ∨ ⌊px⌋ = ix + 1 := by
    have h0 : 0 ≤ px - (ix : ℚ) := by linarith
    have h1 : px - (ix : ℚ) ≤ 1 := by linarith
    have := floor_intCast_add_unit ix h0 h1
    have harg : (ix : ℚ) + (px - (ix : ℚ)) = px := by ring
    rwa [harg] at this
  have hfy : ⌊py⌋ = iy ∨ ⌊py⌋ = iy + 1 := by
    have h0 : 0 ≤ py - (iy : ℚ) := by linarith
    have h1 : py - (iy : ℚ) ≤ 1 := by linarith
    have := floor_intCast_add_unit iy h0 h1
    have harg : (iy : ℚ) + (py - (iy : ℚ)) = py := by ring
    rwa [harg] at this
  have hmem : (ix - ⌊px⌋, iy - ⌊py⌋) ∈ cell_offsets := by
    rcases hfx with h | h <;> rcases hfy with h' | h' <;>
      simp [cell_offsets, h, h']
  have hcell : n.dist2_to_cell px py (ix - ⌊px⌋, iy - ⌊py⌋) = 0 := by
    simp only [WorleyNoise2D.dist2_to_cell]
    have hx : ⌊px⌋ + (ix - ⌊px⌋) = ix := by ring
    have hy : ⌊py⌋ + (iy - ⌊py⌋) = iy := by ring
    rw [hx, hy, ← hpx, ← hpy]
    ring
  have hle : n.min_dist2 px py ≤ 0 :=
    le_of_le_of_eq (min_dist2_le_cell n px py _ hmem) hcell
  exact le_antisymm hle (min_dist2_nonneg n px py)

/-- C1: for every seed and coordinate pair, every component's public
`sample` stays in the closed interval `[0,1]`: Value noise by convex
combination, fBm by normalized convex combination under the preconditions
`octaves ≥ 1` and `gain > 0`, Perlin and Worley by their final clamp. -/
theorem C1_sample_range (seed : ℤ) (x y : ℚ) :
    (0 ≤ ValueNoise2D.sample ⟨seed⟩ x y ∧ ValueNoise2D.sample ⟨seed⟩ x y ≤ 1) ∧
    (∀ (octaves : ℕ) (lacunarity gain : ℚ), 1 ≤ octaves → 0 < gain →
      0 ≤ (FBMValueNoise2D.init seed octaves lacunarity gain).sample x y ∧
        (FBMValueNoise2D.init seed octaves lacunarity gain).sample x y ≤ 1) ∧
    (0 ≤ PerlinNoise2D.sample ⟨seed⟩ x y ∧ PerlinNoise2D.sample ⟨seed⟩ x y ≤ 1) ∧
    (0 ≤ WorleyNoise2D.sample ⟨seed⟩ x y ∧ WorleyNoise2D.sample ⟨seed⟩ x y ≤ 1) :=
  ⟨⟨value_sample_nonneg _ _ _, value_sample_le_one _ _ _⟩,
   fun _o _l _g ho hg => fbm_sample_mem _ x y ho hg,
   perlin_sample_mem _ x y, worley_sample_mem _ x y⟩

/-- Witness for C1 at seed 1234, coordinates (1/2, 1/3), fBm with
octaves 2 and gain 1/2. -/
theorem C1_sample_range_witness :
    1 ≤ 2 ∧ (0 : ℚ) < 1/2 ∧
    (0 ≤ (FBMValueNoise2D.init 1234 2 2 (1/2)).sample (1/2) (1/3) ∧
      (FBMValueNoise2D.init 1234 2 2 (1/2)).sample (1/2) (1/3) ≤ 1) ∧
    (0 ≤ ValueNoise2D.sample ⟨1234⟩ (1/2) (1/3) ∧
      ValueNoise2D.sample ⟨1234⟩ (1/2) (1/3) ≤ 1) :=
  ⟨by norm_num, by norm_num,
   (C1_sample_range 1234 (1/2) (1/3)).2.1 2 2 (1/2) (by norm_num) (by norm_num),
   (C1_sample_range 1234 (1/2) (1/3)).1⟩

/-- C2: Value noise sampled at an integer lattice coordinate equals the
corner value `to_unit_double (hash2d ix iy seed)` exactly (fade(0) = 0
collapses the bilinear interpolation); in particular for seed 1234 at
(10, 20). -/
theorem C2_lattice_agreement :
    (∀ seed ix iy : ℤ,
      ValueNoise2D.sample ⟨seed⟩ (ix : ℚ) (iy : ℚ) =
        to_unit_double (hash2d ix iy seed)) ∧
    ValueNoise2D.sample ⟨1234⟩ 10 20 = to_unit_double (hash2d 10 20 1234) := by
  refine ⟨fun seed ix iy => value_sample_intCast ⟨seed⟩ ix iy, ?_⟩
  have h := value_sample_intCast ⟨1234⟩ 10 20
  push_cast at h
  exact h

/-- C3: `hash32` agrees with the spec's reference avalanche mix computed on
the input reduced mod `2^32`, and its result is a 32-bit value. -/
theorem C3_hash32_avalanche (v : ℤ) :
    hash32 v = hash32_ref_mix v ∧ hash32 v < 4294967296 := by
  constructor
  · simp only [hash32, hash32_ref_mix]
    exact Nat.mod_eq_of_lt (xor_shr_lt 16 (Nat.mod_lt _ (by norm_num)))
  · exact hash32_lt v

/-- C4: the code bug behind the claim — `FBMValueNoise2D.__init__` accepts
`octaves = 0` without validation (the constructed instance records
octaves 0), and `sample`'s divisor `amp_sum` is then exactly 0, so the
final division is a division by zero rather than a construction-time
rejection. -/
theorem C4_octaves_zero_not_rejected :
    (FBMValueNoise2D.init 1234 0 2 (1/2)).octaves = 0 ∧
    (fbm_loop (FBMValueNoise2D.init 1234 0 2 (1/2)) 0 0
      (FBMValueNoise2D.init 1234 0 2 (1/2)).octaves).2.2.2 = 0 :=
  ⟨rfl, rfl⟩

/-- C5: with a single octave, fBm sampling is exactly base value-noise
sampling (amp_sum = 1, total = base · 1). -/
theorem C5_fbm_octave_one (seed : ℤ) (lacunarity gain x y : ℚ) :
    (FBMValueNoise2D.init seed 1 lacunarity gain).sample x y =
      ValueNoise2D.sample ⟨seed⟩ x y := by
  simp [FBMValueNoise2D.sample, fbm_loop, FBMValueNoise2D.init]

/-- C6 counterexample: the fifth palette entry `(0.70710678, 0.70710678)`
is not a unit vector — its components are the decimal literal
`0.70710678`, not `1/√2`, so its squared norm is not 1. -/
theorem C6_counterexample :
    ¬ ((PerlinNoise2D.gradients.getD 4 (0, 0)).1 ^ 2 +
        (PerlinNoise2D.gradients.getD 4 (0, 0)).2 ^ 2 = 1) := by
  norm_num [PerlinNoise2D.gradients, List.getD]

/-- C6 amended: the palette has exactly 8 vectors at 45° increments — the
4 axis-aligned ones of unit length, the 4 diagonal ones with components
`±0.70710678` (an 8-decimal approximation of `1/√2`, squared norm
`2 · 0.70710678² = 0.9999999966439368` rather than exactly 1) — and
`_gradient` selects the
entry indexed by `hash2d(ix, iy, seed) & 7`, which always lies below 8. -/
theorem C6_gradient_palette :
    PerlinNoise2D.gradients.length = 8 ∧
    (∀ k : Fin 8,
      (PerlinNoise2D.gradients.getD (k : ℕ) (0, 0)).1 ^ 2 +
        (PerlinNoise2D.gradients.getD (k : ℕ) (0, 0)).2 ^ 2 =
        if (k : ℕ) < 4 then 1 else 2 * (0.70710678 : ℚ) ^ 2) ∧
    (∀ seed ix iy : ℤ,
      hash2d ix iy seed &&& 7 < 8 ∧
      PerlinNoise2D.gradient ⟨seed⟩ ix iy =
        PerlinNoise2D.gradients.getD (hash2d ix iy seed &&& 7) (0, 0)) := by
  refine ⟨rfl, ?_, fun seed ix iy => ⟨?_, rfl⟩⟩
  · intro k
    fin_cases k <;> norm_num [PerlinNoise2D.gradients, List.getD]
  · exact lt_of_le_of_lt Nat.and_le_right (by norm_num)

/-- C7: Perlin noise at any integer lattice coordinate is exactly 1/2: the
corner's own dot product vanishes, fade(0) = 0 collapses the interpolation
to it, and `0 * 0.5 + 0.5` is 1/2 (unchanged by the clamp). -/
theorem C7_perlin_lattice (seed ix iy : ℤ) :
    PerlinNoise2D.sample ⟨seed⟩ (ix : ℚ) (iy : ℚ) = 1 / 2 := by
  simp [PerlinNoise2D.sample, PerlinNoise2D.dot_grid_gradient, lerp, fade,
    Int.floor_intCast]
  norm_num [min_def, max_def]

/-- C8: sampling Worley noise exactly at a cell's feature point returns 0:
that cell is inside the scanned 3×3 neighborhood, its squared distance is
0, and `sqrt 0 / sqrt 3` clamped is 0. -/
theorem C8_worley_feature_zero (seed ix iy : ℤ) :
    WorleyNoise2D.sample ⟨seed⟩
      (WorleyNoise2D.feature_point ⟨seed⟩ ix iy).1
      (WorleyNoise2D.feature_point ⟨seed⟩ ix iy).2 = 0 := by
  simp only [WorleyNoise2D.sample]
  rw [min_dist2_at_feature]
  have h0 : ((0 : ℚ) : ℝ) = 0 := by norm_num
  rw [h0, Real.sqrt_zero, zero_div, min_eq_right zero_le_one, max_self]

/-- C9: the feature point of cell (ix, iy) lies in that cell's closed unit
square, because both hash-derived offsets lie in [0, 1]. -/
theorem C9_feature_point_in_cell (seed ix iy : ℤ) :
    (ix : ℚ) ≤ (WorleyNoise2D.feature_point ⟨seed⟩ ix iy).1 ∧
    (WorleyNoise2D.feature_point ⟨seed⟩ ix iy).1 ≤ (ix : ℚ) + 1 ∧
    (iy : ℚ) ≤ (WorleyNoise2D.feature_point ⟨seed⟩ ix iy).2 ∧
    (WorleyNoise2D.feature_point ⟨seed⟩ ix iy).2 ≤ (iy : ℚ) + 1 :=
  feature_point_bounds ⟨seed⟩ ix iy

/-- C10 counterexample: the claim's negation — for no input and seed does
the pre-clamp normalized distance `sqrt(min_dist2)/sqrt 3` of
`WorleyNoise2D.sample` exceed 1. -/
theorem C10_counterexample :
    ¬ ∃ (seed : ℤ) (x y : ℚ),
        1 < Real.sqrt ((WorleyNoise2D.min_dist2 ⟨seed⟩ x y : ℚ) : ℝ) /
          Real.sqrt 3 := by
  rintro ⟨seed, x, y, hlt⟩
  have hq := min_dist2_le_two ⟨seed⟩ x y
  have h2 : ((WorleyNoise2D.min_dist2 ⟨seed⟩ x y : ℚ) : ℝ) ≤ 2 := by
    exact_mod_cast hq
  have h3 : (0 : ℝ) < Real.sqrt 3 := Real.sqrt_pos.2 (by norm_num)
  have hle : Real.sqrt ((WorleyNoise2D.min_dist2 ⟨seed⟩ x y : ℚ) : ℝ) /
      Real.sqrt 3 ≤ 1 := by
    rw [div_le_one h3]
    exact Real.sqrt_le_sqrt (by linarith)
  exact absurd hlt (not_lt.2 hle)

/-- C10 amended: `sqrt 3` IS a sound upper bound on the nearest-feature
distance found by the 3×3 scan — the center cell's feature point shares the
sample's unit cell, so `min_dist2 ≤ 2` and the pre-clamp value is at most
`sqrt 2 / sqrt 3`, which is strictly below 1. -/
theorem C10_sqrt3_sound (seed : ℤ) (x y : ℚ) :
    WorleyNoise2D.min_dist2 ⟨seed⟩ x y ≤ 2 ∧
    Real.sqrt ((WorleyNoise2D.min_dist2 ⟨seed⟩ x y : ℚ) : ℝ) / Real.sqrt 3 ≤
      Real.sqrt 2 / Real.sqrt 3 ∧
    Real.sqrt 2 / Real.sqrt 3 < 1 := by
  have hq := min_dist2_le_two ⟨seed⟩ x y
  have h2 : ((WorleyNoise2D.min_dist2 ⟨seed⟩ x y : ℚ) : ℝ) ≤ 2 := by
    exact_mod_cast hq
  have h3 : (0 : ℝ) < Real.sqrt 3 := Real.sqrt_pos.2 (by norm_num)
  refine ⟨hq, ?_, ?_⟩
  · rw [div_le_div_iff_of_pos_right h3]
    exact Real.sqrt_le_sqrt h2
  · rw [div_lt_one h3]
    exact Real.sqrt_lt_sqrt (by norm_num) (by norm_num)
